import Mathlib

/-!
Verification of `polygon_centroid_cross.py`.

The core of the program is embedded shallowly:

* `polygon_centroid` (lines 46-69 of the source) works on exact rationals;
  Python run-time failures (indexing an empty list, dividing by a zero
  vertex count) are made explicit through `Except PyError`.
* `meters_to_deg_offsets` (lines 71-76) and `cross_path_coords`
  (lines 78-104) use real numbers, since they call `math.cos` and
  `math.radians`.
-/

namespace PolygonCentroidCross

/-- Run-time failures the Python functions can raise. -/
inductive PyError where
  | indexError : PyError
  | zeroDivisionError : PyError
deriving DecidableEq, Repr

/-- Lines 47-50: drop a trailing duplicate of the first vertex
(`if coords[0] == coords[-1]: pts = coords[:-1] else: pts = coords`). -/
def normalize (coords : List (ℚ × ℚ)) : List (ℚ × ℚ) :=
  if coords.head? = coords.getLast? then coords.dropLast else coords

/-- One iteration of the loop in lines 55-61: read `pts[i]` and
`pts[(i + 1) % n]`, form the cross product and update the three
accumulators `(A, Cx, Cy)`. -/
def shoelaceStep (pts : List (ℚ × ℚ)) (acc : ℚ × ℚ × ℚ) (i : ℕ) : ℚ × ℚ × ℚ :=
  let p := pts.getD i (0, 0)
  let q := pts.getD ((i + 1) % pts.length) (0, 0)
  let cross := p.1 * q.2 - q.1 * p.2
  (acc.1 + cross, acc.2.1 + (p.1 + q.1) * cross, acc.2.2 + (p.2 + q.2) * cross)

/-- The loop of lines 51-61: `for i in range(n)` accumulating
`(A, Cx, Cy)` from `(0, 0, 0)`. -/
def shoelace (pts : List (ℚ × ℚ)) : ℚ × ℚ × ℚ :=
  (List.range pts.length).foldl (shoelaceStep pts) (0, 0, 0)

/-- Lines 51-69 of `polygon_centroid`, operating on the normalized vertex
list: accumulate the shoelace sums, halve `A`, and either fall back to the
arithmetic mean (a `ZeroDivisionError` when the list is empty) or divide
the weighted sums by `6A`. -/
def centroid_of_pts (pts : List (ℚ × ℚ)) : Except PyError (ℚ × ℚ) :=
  let s := shoelace pts
  let A := s.1 * (1 / 2)
  if |A| < (1e-12 : ℚ) then
    if pts.length = 0 then
      .error .zeroDivisionError
    else
      .ok ((pts.map Prod.fst).sum / (pts.length : ℚ),
           (pts.map Prod.snd).sum / (pts.length : ℚ))
  else
    .ok (s.2.1 / (6 * A), s.2.2 / (6 * A))

/-- Lines 46-69: `polygon_centroid(coords)`. `coords[0]` on an empty list
raises an `IndexError`; otherwise normalize and run the shoelace loop. -/
def polygon_centroid (coords : List (ℚ × ℚ)) : Except PyError (ℚ × ℚ) :=
  match coords with
  | [] => .error .indexError
  | _ :: _ => centroid_of_pts (normalize coords)

/-! ### Claim-facing formulas

These restate the per-edge cross product and the three cyclic sums exactly
as the specification writes them, as `Finset.range` sums; the lemma
`shoelace_eq` connects them to the accumulator loop. -/

/-- A generic cyclic edge sum `Σ_{i<n} f pts[i] pts[(i+1) % n]`. -/
def cyc (f : ℚ × ℚ → ℚ × ℚ → ℚ) (pts : List (ℚ × ℚ)) : ℚ :=
  ∑ i ∈ Finset.range pts.length,
    f (pts.getD i (0, 0)) (pts.getD ((i + 1) % pts.length) (0, 0))

/-- The edge cross product `cross_i = x_i*y_{i+1} - x_{i+1}*y_i`. -/
def fA (p q : ℚ × ℚ) : ℚ := p.1 * q.2 - q.1 * p.2

/-- The weighted term `(x_i + x_{i+1}) * cross_i`. -/
def fCx (p q : ℚ × ℚ) : ℚ := (p.1 + q.1) * (p.1 * q.2 - q.1 * p.2)

/-- The weighted term `(y_i + y_{i+1}) * cross_i`. -/
def fCy (p q : ℚ × ℚ) : ℚ := (p.2 + q.2) * (p.1 * q.2 - q.1 * p.2)

/-- Signed area `A = 0.5 * Σ cross_i`. -/
def signedArea (pts : List (ℚ × ℚ)) : ℚ := (1 / 2) * cyc fA pts

/-- The weighted sum `Cx = Σ (x_i + x_{i+1}) * cross_i`. -/
def sumCx (pts : List (ℚ × ℚ)) : ℚ := cyc fCx pts

/-- The weighted sum `Cy = Σ (y_i + y_{i+1}) * cross_i`. -/
def sumCy (pts : List (ℚ × ℚ)) : ℚ := cyc fCy pts

/-! ### The loop computes the three cyclic sums -/

lemma shoelaceStep_eq (pts : List (ℚ × ℚ)) (acc : ℚ × ℚ × ℚ) (i : ℕ) :
    shoelaceStep pts acc i =
      (acc.1 + fA (pts.getD i (0, 0)) (pts.getD ((i + 1) % pts.length) (0, 0)),
       acc.2.1 + fCx (pts.getD i (0, 0)) (pts.getD ((i + 1) % pts.length) (0, 0)),
       acc.2.2 + fCy (pts.getD i (0, 0)) (pts.getD ((i + 1) % pts.length) (0, 0))) := rfl

lemma shoelace_foldl_eq (pts : List (ℚ × ℚ)) (k : ℕ) (a b c : ℚ) :
    (List.range k).foldl (shoelaceStep pts) (a, b, c) =
      (a + ∑ i ∈ Finset.range k,
            fA (pts.getD i (0, 0)) (pts.getD ((i + 1) % pts.length) (0, 0)),
       b + ∑ i ∈ Finset.range k,
            fCx (pts.getD i (0, 0)) (pts.getD ((i + 1) % pts.length) (0, 0)),
       c + ∑ i ∈ Finset.range k,
            fCy (pts.getD i (0, 0)) (pts.getD ((i + 1) % pts.length) (0, 0))) := by
  induction k generalizing a b c with
  | zero => simp
  | succ k ih =>
      rw [List.range_succ, List.foldl_append, ih]
      simp [shoelaceStep_eq, Finset.sum_range_succ, add_assoc]

/-- The accumulator loop equals the three cyclic sums. -/
lemma shoelace_eq (pts : List (ℚ × ℚ)) :
    shoelace pts = (cyc fA pts, cyc fCx pts, cyc fCy pts) := by
  rw [shoelace, shoelace_foldl_eq]
  simp [cyc]

/-! ### Cyclic edge sums under reversal

`fA`, `fCx`, `fCy` are antisymmetric in their two endpoints, so reversing
the vertex order negates each cyclic edge sum; the three results below
make this precise for a plain reversal and for a reversal that keeps the
first vertex in place (which is how reversal interacts with the trailing
duplicate normalization). -/

lemma fA_antisym (p q : ℚ × ℚ) : fA q p = -fA p q := by
  simp only [fA]; ring

lemma fCx_antisym (p q : ℚ × ℚ) : fCx q p = -fCx p q := by
  simp only [fCx]; ring

lemma fCy_antisym (p q : ℚ × ℚ) : fCy q p = -fCy p q := by
  simp only [fCy]; ring

lemma getD_reverse (L : List (ℚ × ℚ)) (i : ℕ) (h : i < L.length) :
    L.reverse.getD i (0, 0) = L.getD (L.length - 1 - i) (0, 0) := by
  rw [List.getD_eq_getElem _ _ (by simpa using h),
      List.getD_eq_getElem _ _ (by omega), List.getElem_reverse]

/-- Split a cyclic edge sum into its consecutive part and the wrap-around
edge from the last vertex back to the first. -/
lemma cyc_eq_path (f : ℚ × ℚ → ℚ × ℚ → ℚ) (L : List (ℚ × ℚ)) (m : ℕ)
    (hm : L.length = m + 1) :
    cyc f L = (∑ i ∈ Finset.range m, f (L.getD i (0, 0)) (L.getD (i + 1) (0, 0)))
      + f (L.getD m (0, 0)) (L.getD 0 (0, 0)) := by
  rw [cyc, hm, Finset.sum_range_succ, Nat.mod_self]
  congr 1
  refine Finset.sum_congr rfl (fun i hi => ?_)
  rw [Nat.mod_eq_of_lt (by simp only [Finset.mem_range] at hi; omega)]

/-- Reversing the vertex list negates a cyclic sum of any antisymmetric
edge function. -/
lemma cyc_reverse (f : ℚ × ℚ → ℚ × ℚ → ℚ) (hf : ∀ p q, f q p = -f p q)
    (L : List (ℚ × ℚ)) (hL : L ≠ []) :
    cyc f L.reverse = -cyc f L := by
  obtain ⟨m, hm⟩ : ∃ m, L.length = m + 1 := by
    cases L with
    | nil => exact absurd rfl hL
    | cons a l => exact ⟨l.length, rfl⟩
  have hrev : L.reverse.length = m + 1 := by simpa using hm
  rw [cyc_eq_path f L.reverse m hrev, cyc_eq_path f L m hm]
  have key : ∀ i ∈ Finset.range m,
      f (L.reverse.getD i (0, 0)) (L.reverse.getD (i + 1) (0, 0))
        = f (L.getD ((m - 1 - i) + 1) (0, 0)) (L.getD (m - 1 - i) (0, 0)) := by
    intro i hi
    simp only [Finset.mem_range] at hi
    rw [getD_reverse L i (by omega), getD_reverse L (i + 1) (by omega)]
    have h1 : L.length - 1 - i = (m - 1 - i) + 1 := by omega
    have h2 : L.length - 1 - (i + 1) = m - 1 - i := by omega
    rw [h1, h2]
  rw [Finset.sum_congr rfl key,
      Finset.sum_range_reflect (fun j => f (L.getD (j + 1) (0, 0)) (L.getD j (0, 0))) m,
      getD_reverse L m (by omega), getD_reverse L 0 (by omega)]
  have h3 : L.length - 1 - m = 0 := by omega
  have h4 : L.length - 1 - 0 = m := by omega
  rw [h3, h4, hf]
  have flip : ∀ j ∈ Finset.range m,
      f (L.getD (j + 1) (0, 0)) (L.getD j (0, 0))
        = -f (L.getD j (0, 0)) (L.getD (j + 1) (0, 0)) := fun j _ => hf _ _
  rw [Finset.sum_congr rfl flip, Finset.sum_neg_distrib]
  ring

/-- Reversing everything after a fixed first vertex also negates a cyclic
sum of an antisymmetric edge function. -/
lemma cyc_cons_reverse (f : ℚ × ℚ → ℚ × ℚ → ℚ) (hf : ∀ p q, f q p = -f p q)
    (c0 : ℚ × ℚ) (mid : List (ℚ × ℚ)) :
    cyc f (c0 :: mid.reverse) = -cyc f (c0 :: mid) := by
  cases hmid : mid with
  | nil =>
      have h0 : f c0 c0 = 0 := by
        have := hf c0 c0; linarith
      simp [cyc, h0]
  | cons m0 mrest =>
  rw [← hmid]
  have hk : 1 ≤ mid.length := by rw [hmid]; simp
  obtain ⟨k', hk'⟩ : ∃ k', mid.length = k' + 1 := ⟨mid.length - 1, by omega⟩
  have hlen : (c0 :: mid).length = (k' + 1) + 1 := by simp [hk']
  have hlen' : (c0 :: mid.reverse).length = (k' + 1) + 1 := by simp [hk']
  rw [cyc_eq_path f _ (k' + 1) hlen', cyc_eq_path f _ (k' + 1) hlen]
  -- evaluate the wrap-around edges and the first consecutive edge
  have hgrev : ∀ j, j < mid.length →
      (c0 :: mid.reverse).getD (j + 1) (0, 0) = mid.getD (mid.length - 1 - j) (0, 0) := by
    intro j hj
    rw [List.getD_cons_succ, getD_reverse mid j hj]
  rw [Finset.sum_range_succ' (fun i =>
        f ((c0 :: mid.reverse).getD i (0, 0)) ((c0 :: mid.reverse).getD (i + 1) (0, 0))) k',
      Finset.sum_range_succ' (fun i =>
        f ((c0 :: mid).getD i (0, 0)) ((c0 :: mid).getD (i + 1) (0, 0))) k']
  simp only [List.getD_cons_zero, List.getD_cons_succ]
  have e1 : (c0 :: mid.reverse).getD (k' + 1) (0, 0) = mid.getD 0 (0, 0) := by
    rw [hgrev k' (by omega)]; congr 1; omega
  have e2 : mid.reverse.getD 0 (0, 0) = mid.getD k' (0, 0) := by
    have := getD_reverse mid 0 (by omega)
    rw [this]; congr 1; omega
  have e3 : ∀ i ∈ Finset.range k',
      f (mid.reverse.getD i (0, 0)) (mid.reverse.getD (i + 1) (0, 0))
        = f (mid.getD ((k' - 1 - i) + 1) (0, 0)) (mid.getD (k' - 1 - i) (0, 0)) := by
    intro i hi
    simp only [Finset.mem_range] at hi
    rw [getD_reverse mid i (by omega), getD_reverse mid (i + 1) (by omega)]
    have h1 : mid.length - 1 - i = (k' - 1 - i) + 1 := by omega
    have h2 : mid.length - 1 - (i + 1) = k' - 1 - i := by omega
    rw [h1, h2]
  rw [List.getD_cons_succ] at e1
  rw [e1, e2, Finset.sum_congr rfl e3,
      Finset.sum_range_reflect (fun j => f (mid.getD (j + 1) (0, 0)) (mid.getD j (0, 0))) k']
  have flip : ∀ j ∈ Finset.range k',
      f (mid.getD (j + 1) (0, 0)) (mid.getD j (0, 0))
        = -f (mid.getD j (0, 0)) (mid.getD (j + 1) (0, 0)) := fun j _ => hf _ _
  rw [Finset.sum_congr rfl flip, Finset.sum_neg_distrib]
  linarith [hf c0 (mid.getD 0 (0, 0)), hf c0 (mid.getD k' (0, 0))]

/-- If a second vertex list negates all three shoelace sums and keeps the
vertex count and coordinate totals, the computed centroid is unchanged:
the sign cancels between numerator and denominator, and both the branch
test `|A| < 1e-12` and the arithmetic-mean fallback are sign-blind. -/
lemma centroid_of_pts_neg (pts pts' : List (ℚ × ℚ))
    (hlen : pts'.length = pts.length)
    (hA : cyc fA pts' = -cyc fA pts)
    (hCx : cyc fCx pts' = -cyc fCx pts)
    (hCy : cyc fCy pts' = -cyc fCy pts)
    (hsx : (pts'.map Prod.fst).sum = (pts.map Prod.fst).sum)
    (hsy : (pts'.map Prod.snd).sum = (pts.map Prod.snd).sum) :
    centroid_of_pts pts' = centroid_of_pts pts := by
  simp only [centroid_of_pts, shoelace_eq, hA, hCx, hCy, hlen, hsx, hsy,
    neg_mul, abs_neg, mul_neg, neg_div_neg_eq]

lemma centroid_reverse (L : List (ℚ × ℚ)) (hL : L ≠ []) :
    centroid_of_pts L.reverse = centroid_of_pts L := by
  refine centroid_of_pts_neg L L.reverse (by simp) (cyc_reverse fA fA_antisym L hL)
    (cyc_reverse fCx fCx_antisym L hL) (cyc_reverse fCy fCy_antisym L hL) ?_ ?_
  · rw [List.map_reverse, List.sum_reverse]
  · rw [List.map_reverse, List.sum_reverse]

lemma centroid_cons_reverse (c0 : ℚ × ℚ) (mid : List (ℚ × ℚ)) :
    centroid_of_pts (c0 :: mid.reverse) = centroid_of_pts (c0 :: mid) := by
  refine centroid_of_pts_neg (c0 :: mid) (c0 :: mid.reverse) (by simp)
    (cyc_cons_reverse fA fA_antisym c0 mid)
    (cyc_cons_reverse fCx fCx_antisym c0 mid)
    (cyc_cons_reverse fCy fCy_antisym c0 mid) ?_ ?_
  · simp [List.map_reverse, List.sum_reverse]
  · simp [List.map_reverse, List.sum_reverse]

/-- On a nonempty input `polygon_centroid` is the normalized-list centroid. -/
lemma polygon_centroid_cons (coords : List (ℚ × ℚ)) (h : coords ≠ []) :
    polygon_centroid coords = centroid_of_pts (normalize coords) := by
  cases coords with
  | nil => exact absurd rfl h
  | cons a l => rfl

/-- C7. Winding-order invariance: reversing the order of the vertices
yields the same centroid from `polygon_centroid`; the signed area changes
sign in both the numerator and the denominator, so the result is not just
within tolerance but identical. Proved for every input list, whether open
or explicitly closed. -/
theorem polygon_centroid_reverse_eq (coords : List (ℚ × ℚ)) :
    polygon_centroid coords.reverse = polygon_centroid coords := by
  cases hc : coords with
  | nil => rfl
  | cons c0 rest =>
    rw [polygon_centroid_cons _ (by simp), polygon_centroid_cons _ (by simp)]
    by_cases hcl : (c0 :: rest).head? = (c0 :: rest).getLast?
    · have hcl' : (c0 :: rest).reverse.head? = (c0 :: rest).reverse.getLast? := by
        rw [List.head?_reverse, List.getLast?_reverse]; exact hcl.symm
      rw [normalize, if_pos hcl', normalize, if_pos hcl, List.dropLast_reverse]
      by_cases hrne : rest = []
      · subst hrne; rfl
      · -- a genuinely closed ring: the last vertex of `rest` is `c0`
          have hlast : rest.getLast? = some c0 := by
            cases hr : rest with
            | nil => exact absurd hr hrne
            | cons r0 rrest => rw [hr] at hcl; simpa using hcl.symm
          have hmid : rest.dropLast ++ [c0] = rest := by
            conv_rhs => rw [← List.dropLast_append_getLast hrne]
            congr 1
            have := List.getLast?_eq_getLast rest hrne
            rw [this] at hlast
            simpa using hlast.symm
          have htail : (c0 :: rest).tail = rest := rfl
          have hdrop : (c0 :: rest).dropLast = c0 :: rest.dropLast := by
            cases rest with
            | nil => exact absurd rfl hrne
            | cons r0 rrest => rfl
          rw [htail, hdrop]
          conv_lhs => rw [← hmid]
          simpa using centroid_cons_reverse c0 rest.dropLast
    · have hcl' : ¬(c0 :: rest).reverse.head? = (c0 :: rest).reverse.getLast? := by
        rw [List.head?_reverse, List.getLast?_reverse]
        exact fun h => hcl h.symm
      rw [normalize, if_neg hcl', normalize, if_neg hcl]
      exact centroid_reverse _ (by simp)

lemma signedArea_eq (pts : List (ℚ × ℚ)) :
    cyc fA pts * (1 / 2) = signedArea pts := by
  rw [signedArea, mul_comm]

/-- C1. If the normalized vertex list has at least 3 points and the signed
area `A = 0.5 * Σ cross_i` satisfies `|A| ≥ 1e-12`, `polygon_centroid`
returns exactly `(Cx / (6A), Cy / (6A))` with
`Cx = Σ (x_i + x_{i+1}) * cross_i` and `Cy = Σ (y_i + y_{i+1}) * cross_i`. -/
theorem polygon_centroid_formula (coords : List (ℚ × ℚ))
    (h3 : 3 ≤ (normalize coords).length)
    (hA : (1e-12 : ℚ) ≤ |signedArea (normalize coords)|) :
    polygon_centroid coords =
      .ok (sumCx (normalize coords) / (6 * signedArea (normalize coords)),
           sumCy (normalize coords) / (6 * signedArea (normalize coords))) := by
  have hne : coords ≠ [] := by
    intro h; rw [h] at h3; simp [normalize] at h3
  rw [polygon_centroid_cons _ hne]
  simp only [centroid_of_pts, shoelace_eq, signedArea_eq]
  rw [if_neg (not_lt.mpr hA)]
  rfl

/-- C1 witness: the square `(0,0),(2,0),(2,2),(0,2)` has area 4 and the
formula of C1 applies to it (giving centroid `(1,1)`). -/
theorem polygon_centroid_formula_witness :
    polygon_centroid [((0 : ℚ), 0), (2, 0), (2, 2), (0, 2)] =
      .ok (sumCx (normalize [((0 : ℚ), 0), (2, 0), (2, 2), (0, 2)]) /
             (6 * signedArea (normalize [((0 : ℚ), 0), (2, 0), (2, 2), (0, 2)])),
           sumCy (normalize [((0 : ℚ), 0), (2, 0), (2, 2), (0, 2)]) /
             (6 * signedArea (normalize [((0 : ℚ), 0), (2, 0), (2, 2), (0, 2)]))) :=
  polygon_centroid_formula _
    (by norm_num [normalize, Prod.ext_iff])
    (by norm_num [signedArea, cyc, fA, normalize, Prod.ext_iff,
          (show List.range 4 = [0, 1, 2, 3] by decide), Finset.sum_range_succ])

/-- Two distinct vertices give zero signed area, so `polygon_centroid`
falls back to the arithmetic mean and returns their midpoint. -/
lemma polygon_centroid_pair (p q : ℚ × ℚ) (hpq : p ≠ q) :
    polygon_centroid [p, q] = .ok ((p.1 + q.1) / 2, (p.2 + q.2) / 2) := by
  have hn : normalize [p, q] = [p, q] := by
    simp only [normalize]
    rw [if_neg]
    simp only [List.head?_cons, List.getLast?_cons_cons, List.getLast?_singleton,
      Option.some.injEq]
    exact hpq
  rw [polygon_centroid_cons _ (by simp), hn]
  simp only [centroid_of_pts, shoelace_eq]
  have hA0 : cyc fA [p, q] = 0 := by
    simp [cyc, fA, Finset.sum_range_succ]
    ring
  rw [hA0]
  norm_num

/-- C2 counterexample: called with the two distinct vertices `(0,0)` and
`(2,0)`, `polygon_centroid` does not fail at all — it returns their
midpoint `(1,0)` — contradicting the claim that fewer than 3 normalized
vertices produce an `InsufficientVerticesError`-style failure. -/
theorem polygon_centroid_two_points_no_error :
    polygon_centroid [((0 : ℚ), 0), (2, 0)] = .ok (1, 0) := by
  norm_num [polygon_centroid, centroid_of_pts, normalize, shoelace, shoelaceStep,
    Prod.ext_iff, (show List.range 2 = [0, 1] by decide)]

/-- C2 amended: `polygon_centroid` raises no typed insufficient-vertices
failure; with 2 distinct vertices the zero-area fallback returns their
midpoint instead. -/
theorem polygon_centroid_pair_midpoint (p q : ℚ × ℚ) (hpq : p ≠ q) :
    polygon_centroid [p, q] = .ok ((p.1 + q.1) / 2, (p.2 + q.2) / 2) :=
  polygon_centroid_pair p q hpq

/-- C2 witness: the amended statement at `(0,0)` and `(2,0)`. -/
theorem polygon_centroid_pair_midpoint_witness :
    polygon_centroid [((0 : ℚ), 0), (2, 0)] =
      .ok ((((0 : ℚ), (0 : ℚ)).1 + ((2 : ℚ), (0 : ℚ)).1) / 2,
           (((0 : ℚ), (0 : ℚ)).2 + ((2 : ℚ), (0 : ℚ)).2) / 2) :=
  polygon_centroid_pair_midpoint ((0 : ℚ), (0 : ℚ)) ((2 : ℚ), (0 : ℚ))
    (by norm_num [Prod.ext_iff])

/-- C3 counterexample: the one-point list `[(0,0)]` normalizes to the
empty list, whose signed area `0` is below `1e-12`, yet `polygon_centroid`
does not return the arithmetic mean — it fails with the division-by-zero
of the fallback `sx / n` at `n = 0`. -/
theorem polygon_centroid_degenerate_singleton_error :
    |signedArea (normalize [((0 : ℚ), 0)])| < (1e-12 : ℚ) ∧
      polygon_centroid [((0 : ℚ), 0)] = .error .zeroDivisionError := by
  constructor
  · norm_num [signedArea, cyc, fA, normalize]
  · norm_num [polygon_centroid, centroid_of_pts, normalize, shoelace]

/-- C3 amended: whenever the normalized vertex list is nonempty and its
signed area satisfies `|A| < 1e-12`, `polygon_centroid` returns the
unweighted arithmetic mean of the normalized vertices and does not fail. -/
theorem polygon_centroid_degenerate_mean (coords : List (ℚ × ℚ))
    (hne : normalize coords ≠ [])
    (hA : |signedArea (normalize coords)| < (1e-12 : ℚ)) :
    polygon_centroid coords =
      .ok (((normalize coords).map Prod.fst).sum / ((normalize coords).length : ℚ),
           ((normalize coords).map Prod.snd).sum / ((normalize coords).length : ℚ)) := by
  have hc : coords ≠ [] := by
    intro h; rw [h] at hne; exact hne (by simp [normalize])
  rw [polygon_centroid_cons _ hc]
  simp only [centroid_of_pts, shoelace_eq, signedArea_eq]
  rw [if_pos hA, if_neg (fun h => hne (List.length_eq_zero.mp h))]

/-- C3 witness: three collinear points `(0,0),(1,0),(2,0)` have zero area
and the amended statement applies (the mean is `(1,0)`). -/
theorem polygon_centroid_degenerate_mean_witness :
    polygon_centroid [((0 : ℚ), 0), (1, 0), (2, 0)] =
      .ok (((normalize [((0 : ℚ), 0), (1, 0), (2, 0)]).map Prod.fst).sum /
             ((normalize [((0 : ℚ), 0), (1, 0), (2, 0)]).length : ℚ),
           ((normalize [((0 : ℚ), 0), (1, 0), (2, 0)]).map Prod.snd).sum /
             ((normalize [((0 : ℚ), 0), (1, 0), (2, 0)]).length : ℚ)) :=
  polygon_centroid_degenerate_mean _
    (by norm_num [normalize, Prod.ext_iff]; exact List.cons_ne_nil _ _)
    (by norm_num [signedArea, cyc, fA, normalize, Prod.ext_iff,
          (show List.range 3 = [0, 1, 2] by decide), Finset.sum_range_succ])

/-- C6. Closed-vs-open equivalence: for a vertex list of at least 3
points whose first vertex differs from its last, appending a copy of the
first vertex does not change the result of `polygon_centroid` — the
normalization step drops exactly that trailing duplicate. -/
theorem polygon_centroid_append_head (c0 : ℚ × ℚ) (rest : List (ℚ × ℚ))
    (h3 : 3 ≤ (c0 :: rest).length)
    (hopen : (c0 :: rest).getLast? ≠ some c0) :
    polygon_centroid ((c0 :: rest) ++ [c0]) = polygon_centroid (c0 :: rest) := by
  rw [polygon_centroid_cons _ (by simp), polygon_centroid_cons _ (by simp)]
  have h1 : normalize ((c0 :: rest) ++ [c0]) = c0 :: rest := by
    simp only [normalize]
    rw [if_pos (by rw [List.getLast?_concat]; simp), List.dropLast_concat]
  have h2 : normalize (c0 :: rest) = c0 :: rest := by
    simp only [normalize]
    rw [if_neg]
    simp only [List.head?_cons]
    exact fun h => hopen h.symm
  rw [h1, h2]

/-- C6 witness: the open triangle `(0,0),(1,0),(0,1)` gives the same
centroid as its explicitly closed form. -/
theorem polygon_centroid_append_head_witness :
    polygon_centroid ([((0 : ℚ), 0), (1, 0), (0, 1)] ++ [((0 : ℚ), 0)]) =
      polygon_centroid [((0 : ℚ), 0), (1, 0), (0, 1)] :=
  polygon_centroid_append_head ((0 : ℚ), (0 : ℚ)) [(1, 0), (0, 1)]
    (by norm_num)
    (by norm_num [Prod.ext_iff])

/-- C10. Implicit totality behavior on short inputs: any list of length
at least 2 produces a coordinate pair with no error (two distinct points
give their midpoint through the zero-area fallback), while a one-point
list normalizes to the empty list and the fallback's division by `n = 0`
fails with a `ZeroDivisionError`. -/
theorem polygon_centroid_small_inputs :
    (∀ coords : List (ℚ × ℚ), 2 ≤ coords.length →
        ∃ c, polygon_centroid coords = .ok c)
    ∧ (∀ p q : ℚ × ℚ, p ≠ q →
        polygon_centroid [p, q] = .ok ((p.1 + q.1) / 2, (p.2 + q.2) / 2))
    ∧ (∀ p : ℚ × ℚ, polygon_centroid [p] = .error .zeroDivisionError) := by
  refine ⟨?_, fun p q hpq => polygon_centroid_pair p q hpq, ?_⟩
  · intro coords hlen
    have hne : coords ≠ [] := by
      intro h; rw [h] at hlen; simp at hlen
    rw [polygon_centroid_cons _ hne]
    have hlen1 : 1 ≤ (normalize coords).length := by
      simp only [normalize]
      split_ifs
      · rw [List.length_dropLast]; omega
      · omega
    simp only [centroid_of_pts, shoelace_eq]
    split_ifs with h1 h2
    · exact absurd h2 (by omega)
    · exact ⟨_, rfl⟩
    · exact ⟨_, rfl⟩
  · intro p
    rw [polygon_centroid_cons _ (by simp)]
    have hn : normalize [p] = [] := by simp [normalize]
    rw [hn]
    norm_num [centroid_of_pts, shoelace]

/-- C10 witness: a 2-element list is accepted and a 1-element list fails
with the division error. -/
theorem polygon_centroid_small_inputs_witness :
    (∃ c, polygon_centroid [((0 : ℚ), 0), (3, 0)] = .ok c) ∧
      polygon_centroid [((5 : ℚ), 7)] = .error .zeroDivisionError :=
  ⟨polygon_centroid_small_inputs.1 _ (by norm_num),
   polygon_centroid_small_inputs.2.2 ((5 : ℚ), (7 : ℚ))⟩

/-! ### The local offset projector (lines 71-104)

These functions call `math.cos` and use `math.radians`, so they are
embedded over the real numbers. -/

/-- Lines 71-76: `meters_to_deg_offsets(lat_deg, east_m, north_m)`:
`dlat = north_m / 111320.0` and
`dlon = east_m / (111320.0 * max(cos(radians(lat_deg)), 1e-12))`,
returned in the order `(dlon, dlat)`. `math.radians(x)` is `x * π / 180`. -/
noncomputable def meters_to_deg_offsets (lat_deg east_m north_m : ℝ) : ℝ × ℝ :=
  let lat_rad := lat_deg * (Real.pi / 180)
  let dlat := north_m / 111320
  let dlon := east_m / (111320 * max (Real.cos lat_rad) (1e-12 : ℝ))
  (dlon, dlat)

/-- Lines 78-104: `cross_path_coords(lon, lat, arm_m)`: the 7-point
sequence center, north, south, center, west, east, center. The final
comprehension `[(p[0], p[1]) for p in seq]` is the identity on pairs. -/
noncomputable def cross_path_coords (lon lat arm_m : ℝ) : List (ℝ × ℝ) :=
  let d := meters_to_deg_offsets lat arm_m arm_m
  let dlon_east := d.1
  let dlat_north := d.2
  let north : ℝ × ℝ := (lon, lat + dlat_north)
  let south : ℝ × ℝ := (lon, lat - dlat_north)
  let east : ℝ × ℝ := (lon + dlon_east, lat)
  let west : ℝ × ℝ := (lon - dlon_east, lat)
  [(lon, lat), north, south, (lon, lat), west, east, (lon, lat)]

/-- C4. For every latitude and pair of metric offsets,
`meters_to_deg_offsets` returns exactly
`deltaLatDeg = north_m / 111320` and
`deltaLonDeg = east_m / (111320 * max(cos(radians(lat_deg)), 1e-12))`. -/
theorem meters_to_deg_offsets_eq (lat_deg east_m north_m : ℝ) :
    meters_to_deg_offsets lat_deg east_m north_m =
      (east_m / (111320 * max (Real.cos (lat_deg * (Real.pi / 180))) (1e-12 : ℝ)),
       north_m / 111320) := rfl

/-- C5. `cross_path_coords` returns exactly 7 points in the fixed order
center, north, south, center, west, east, center, where the north/south
points shift only the latitude by the projected offset and the east/west
points shift only the longitude; entries 0, 3 and 6 are the center. -/
theorem cross_path_coords_spec (lon lat arm_m : ℝ) :
    cross_path_coords lon lat arm_m =
      [(lon, lat),
       (lon, lat + (meters_to_deg_offsets lat arm_m arm_m).2),
       (lon, lat - (meters_to_deg_offsets lat arm_m arm_m).2),
       (lon, lat),
       (lon - (meters_to_deg_offsets lat arm_m arm_m).1, lat),
       (lon + (meters_to_deg_offsets lat arm_m arm_m).1, lat),
       (lon, lat)]
    ∧ (cross_path_coords lon lat arm_m).length = 7
    ∧ (cross_path_coords lon lat arm_m).getD 0 (0, 0) = (lon, lat)
    ∧ (cross_path_coords lon lat arm_m).getD 3 (0, 0) = (lon, lat)
    ∧ (cross_path_coords lon lat arm_m).getD 6 (0, 0) = (lon, lat) :=
  ⟨rfl, rfl, rfl, rfl, rfl⟩

/-- C8. At latitude 0 the cosine factor is 1, so equal east and north
offsets produce equal longitude and latitude deltas. -/
theorem meters_to_deg_offsets_equator_symm (m : ℝ) :
    (meters_to_deg_offsets 0 m m).1 = (meters_to_deg_offsets 0 m m).2 := by
  simp only [meters_to_deg_offsets, zero_mul, Real.cos_zero]
  rw [max_eq_left (by norm_num : (1e-12 : ℝ) ≤ 1)]
  norm_num

/-- C9. For a positive east offset, the longitude delta at latitude 60°
is strictly larger than at latitude 0°, because `cos(60°) = 1/2` halves
the denominator. -/
theorem meters_to_deg_offsets_lat60_gt (east_m north_m : ℝ) (he : 0 < east_m) :
    (meters_to_deg_offsets 0 east_m north_m).1
      < (meters_to_deg_offsets 60 east_m north_m).1 := by
  simp only [meters_to_deg_offsets, zero_mul, Real.cos_zero]
  have h60 : (60 : ℝ) * (Real.pi / 180) = Real.pi / 3 := by ring
  rw [h60, Real.cos_pi_div_three,
      max_eq_left (by norm_num : (1e-12 : ℝ) ≤ 1),
      max_eq_left (by norm_num : (1e-12 : ℝ) ≤ 1 / 2)]
  have h1 : (111320 : ℝ) * 1 = 111320 := by norm_num
  have h2 : (111320 : ℝ) * (1 / 2) = 55660 := by norm_num
  rw [h1, h2]
  exact div_lt_div_of_pos_left he (by norm_num) (by norm_num)

/-- C9 witness: at `east_m = 10` the strict inequality holds. -/
theorem meters_to_deg_offsets_lat60_gt_witness :
    (meters_to_deg_offsets 0 10 10).1 < (meters_to_deg_offsets 60 10 10).1 :=
  meters_to_deg_offsets_lat60_gt 10 10 (by norm_num)

end PolygonCentroidCross
